import Mathlib

/-!
# Producer / consumer hand-off queue (`producer_customer.cpp`)

A shallow embedding of the two thread bodies `producer()` and `consumer()` as
an interleaving state machine over the shared variables `buffer`, `finished`
and `mtx`, together with the condition variable `cv`.

* Every C++ statement that touches shared state is one atomic step; the
  interleaving of the two threads is chosen by a schedule (a list of labels).
* `mtx` is modelled by its owner (`none` when free); a thread that tries to
  lock a held mutex has no step (it is blocked).
* `cv.wait(lock, pred)` is `while (!pred()) wait(lock);`: the predicate is
  evaluated with the mutex held, and when it is false the mutex is released
  and the thread enters the wait set in one atomic step.  A waiting thread is
  released by `notify_one` or by a spurious wake-up and must then reacquire
  the mutex before it evaluates the predicate again.
* The `std::unique_lock` objects release the mutex when they are destroyed:
  at the end of every iteration of the consumer loop and after its `break`.
* `MAX_ITEMS` is the parameter `N`.  The loop variable `i` only takes the
  values `1 .. N + 1` (theorem `counter_le`), so for every `N` below the
  largest `int` the increment never overflows; `i` is kept as a natural number
  and cast to an `int` item when it is pushed.
* The field `log` is a history variable: it records, in order, every push,
  every pop and every write of `finished`.  No step reads it.
-/

namespace ProducerConsumer

/-! ## The model -/

/-- The two threads started by `main`. -/
inductive Thread where
  | producer
  | consumer
  deriving DecidableEq

/-- Observable effects on the shared state, recorded in `State.log`. -/
inductive Event where
  | push (v : Int)
  | pop (v : Int)
  | setFinished
  deriving DecidableEq

/-- Program counter of `producer()`; the constructor names the statement that
is executed next, `i` is the loop variable. -/
inductive ProdPC where
  /-- line 31: test `i <= MAX_ITEMS` -/
  | loopTest (i : Nat)
  /-- line 33: `std::unique_lock<std::mutex> lock(mtx)` -/
  | lock (i : Nat)
  /-- line 34: `buffer.push(i)` -/
  | push (i : Nat)
  /-- line 35: `lock.unlock()` -/
  | unlock (i : Nat)
  /-- line 38: `cv.notify_one()`, followed by `++i` -/
  | notify (i : Nat)
  /-- line 42: `std::unique_lock<std::mutex> lock(mtx)` -/
  | lockF
  /-- line 43: `finished = true` -/
  | setFinished
  /-- line 44: `lock.unlock()` -/
  | unlockF
  /-- line 47: `cv.notify_one()` -/
  | notifyF
  /-- line 48: returned -/
  | done
  deriving DecidableEq

/-- Program counter of `consumer()`. -/
inductive ConsPC where
  /-- line 59: `std::unique_lock<std::mutex> lock(mtx)` -/
  | lock
  /-- lines 62-64: inside `cv.wait`, mutex held, about to evaluate the predicate -/
  | waitCheck
  /-- inside `cv.wait`: blocked in the wait set of `cv`, mutex released -/
  | asleep
  /-- inside `cv.wait`: unblocked, about to reacquire the mutex -/
  | woken
  /-- line 67: test of `while (!buffer.empty())`, then lines 68-69 -/
  | drain
  /-- line 74: `if (finished && buffer.empty())` -/
  | exitCheck
  /-- line 77: end of the loop body, `lock` is destroyed and releases the mutex -/
  | unlockLoop
  /-- line 75: `break` has been executed; `lock` is about to be destroyed -/
  | exiting
  /-- line 78: returned -/
  | done
  deriving DecidableEq

/-- The shared variables, both program counters and the history variable. -/
structure State where
  /-- `std::queue<int> buffer`, front of the queue first -/
  buffer : List Int
  /-- `bool finished` -/
  finished : Bool
  /-- owner of `std::mutex mtx`, `none` when it is free -/
  mtx : Option Thread
  prod : ProdPC
  cons : ConsPC
  /-- history of pushes, pops and writes of `finished` -/
  log : List Event
  deriving DecidableEq

/-- The state in which `main` starts both threads: empty queue,
`finished = false`, mutex free. -/
def init : State :=
  { buffer := [], finished := false, mtx := none,
    prod := .loopTest 1, cons := .lock, log := [] }

/-- The lambda passed to `cv.wait` (line 63): `!buffer.empty() || finished`. -/
def waitPred (s : State) : Bool :=
  !s.buffer.isEmpty || s.finished

/-- Effect of `cv.notify_one()` on the only possible waiter: a thread in the
wait set is unblocked, otherwise nothing happens. -/
def notifyOne : ConsPC → ConsPC
  | .asleep => .woken
  | pc => pc

/-- One step of `producer()`; `none` when the thread is blocked on the mutex
or has returned. -/
def producer (MAX_ITEMS : Nat) (s : State) : Option State :=
  match s.prod with
  | .loopTest i =>
      if i ≤ MAX_ITEMS then some { s with prod := .lock i }
      else some { s with prod := .lockF }
  | .lock i =>
      if s.mtx = none then some { s with mtx := some .producer, prod := .push i } else none
  | .push i =>
      some { s with buffer := s.buffer ++ [(i : Int)], log := s.log ++ [.push i],
                    prod := .unlock i }
  | .unlock i => some { s with mtx := none, prod := .notify i }
  | .notify i => some { s with cons := notifyOne s.cons, prod := .loopTest (i + 1) }
  | .lockF =>
      if s.mtx = none then some { s with mtx := some .producer, prod := .setFinished } else none
  | .setFinished =>
      some { s with finished := true, log := s.log ++ [.setFinished], prod := .unlockF }
  | .unlockF => some { s with mtx := none, prod := .notifyF }
  | .notifyF => some { s with cons := notifyOne s.cons, prod := .done }
  | .done => none

/-- One step of `consumer()`; `none` when the thread is blocked (on the mutex
or in the wait set) or has returned. -/
def consumer (s : State) : Option State :=
  match s.cons with
  | .lock =>
      if s.mtx = none then some { s with mtx := some .consumer, cons := .waitCheck } else none
  | .waitCheck =>
      if waitPred s then some { s with cons := .drain }
      else some { s with mtx := none, cons := .asleep }
  | .asleep => none
  | .woken =>
      if s.mtx = none then some { s with mtx := some .consumer, cons := .waitCheck } else none
  | .drain =>
      match s.buffer with
      | [] => some { s with cons := .exitCheck }
      | item :: rest => some { s with buffer := rest, log := s.log ++ [.pop item] }
  | .exitCheck =>
      if s.finished && s.buffer.isEmpty then some { s with cons := .exiting }
      else some { s with cons := .unlockLoop }
  | .unlockLoop => some { s with mtx := none, cons := .lock }
  | .exiting => some { s with mtx := none, cons := .done }
  | .done => none

/-- A spurious wake-up: a thread blocked in `cv.wait` is unblocked without any
notification. -/
def spuriousStep (s : State) : Option State :=
  match s.cons with
  | .asleep => some { s with cons := .woken }
  | _ => none

/-- The scheduler's choice for the next step. -/
inductive Label where
  | prod
  | cons
  | spurious
  deriving DecidableEq

/-- One step of the two-thread system. -/
def step (N : Nat) (l : Label) (s : State) : Option State :=
  match l with
  | .prod => producer N s
  | .cons => consumer s
  | .spurious => spuriousStep s

/-- Runs a schedule; `none` when some scheduled step is not enabled. -/
def run (N : Nat) : List Label → State → Option State
  | [], s => some s
  | l :: ls, s =>
      match step N l s with
      | some t => run N ls t
      | none => none

/-- The states some interleaving of the two threads (with spurious wake-ups)
reaches from `init`. -/
def Reachable (N : Nat) (s : State) : Prop :=
  ∃ sched : List Label, run N sched init = some s

/-- Values pushed so far, in order. -/
def pushesOf : List Event → List Int
  | [] => []
  | .push v :: es => v :: pushesOf es
  | _ :: es => pushesOf es

/-- Values popped so far, in order. -/
def popsOf : List Event → List Int
  | [] => []
  | .pop v :: es => v :: popsOf es
  | _ :: es => popsOf es

/-- Number of writes `finished = true` so far. -/
def flagWrites : List Event → Nat
  | [] => 0
  | .setFinished :: es => flagWrites es + 1
  | _ :: es => flagWrites es

/-- The list `[1, 2, ..., k]` of `int` items. -/
def oneTo (k : Nat) : List Int :=
  (List.range k).map (fun j => ((j + 1 : Nat) : Int))

/-- The consumer has executed the `break` of line 75. -/
def ConsPC.terminal : ConsPC → Bool
  | .exiting => true
  | .done => true
  | _ => false

/-- The producer owns the mutex exactly between a lock and the matching unlock. -/
@[simp] def ProdPC.holds : ProdPC → Bool
  | .push _ => true
  | .unlock _ => true
  | .setFinished => true
  | .unlockF => true
  | _ => false

/-- The consumer owns the mutex from its lock (or the return of the internal
wait) up to the destruction of `lock`. -/
@[simp] def ConsPC.holds : ConsPC → Bool
  | .waitCheck => true
  | .drain => true
  | .exitCheck => true
  | .unlockLoop => true
  | .exiting => true
  | _ => false

/-- Number of pushes the producer has performed when it is at a given point. -/
@[simp] def ProdPC.pushed (N : Nat) : ProdPC → Nat
  | .loopTest i => i - 1
  | .lock i => i - 1
  | .push i => i - 1
  | .unlock i => i
  | .notify i => i
  | _ => N

/-- The range of the loop variable at each point of the producer. -/
@[simp] def ProdPC.counterOk (N : Nat) : ProdPC → Prop
  | .loopTest i => 1 ≤ i ∧ i ≤ N + 1
  | .lock i => 1 ≤ i ∧ i ≤ N
  | .push i => 1 ≤ i ∧ i ≤ N
  | .unlock i => 1 ≤ i ∧ i ≤ N
  | .notify i => 1 ≤ i ∧ i ≤ N
  | _ => True

/-- The producer has executed `finished = true`. -/
@[simp] def ProdPC.flagSet : ProdPC → Bool
  | .unlockF => true
  | .notifyF => true
  | .done => true
  | _ => false

/-- The producer has changed the shared state and the `notify_one` that
follows this change is still to be executed. -/
@[simp] def ProdPC.notifyPending : ProdPC → Bool
  | .unlock _ => true
  | .notify _ => true
  | .unlockF => true
  | .notifyF => true
  | _ => false

/-- What the consumer knows about the shared state after its drain loop. -/
@[simp] def ConsPC.phaseOk (buffer : List Int) (finished : Bool) : ConsPC → Prop
  | .exitCheck => buffer = []
  | .unlockLoop => buffer = [] ∧ finished = false
  | .exiting => buffer = [] ∧ finished = true
  | .done => buffer = [] ∧ finished = true
  | _ => True

/-- The inductive invariant of the two-thread system. -/
structure Inv (N : Nat) (s : State) : Prop where
  mutex : s.mtx = if s.prod.holds then some Thread.producer
                  else if s.cons.holds then some Thread.consumer else none
  excl : ¬ (s.prod.holds = true ∧ s.cons.holds = true)
  counter : s.prod.counterOk N
  pushes : pushesOf s.log = oneTo (s.prod.pushed N)
  fifo : popsOf s.log ++ s.buffer = oneTo (s.prod.pushed N)
  flag : s.finished = s.prod.flagSet
  writes : flagWrites s.log = if s.finished then 1 else 0
  wake : s.cons = .asleep → waitPred s = true → s.prod.notifyPending = true
  phase : s.cons.phaseOk s.buffer s.finished

/-- Number of steps `producer()` still has to execute. -/
@[simp] def ProdPC.remaining (N : Nat) : ProdPC → Nat
  | .loopTest i => 5 * (N + 1 - i) + 5
  | .lock i => 5 * (N + 1 - i) + 4
  | .push i => 5 * (N + 1 - i) + 3
  | .unlock i => 5 * (N + 1 - i) + 2
  | .notify i => 5 * (N + 1 - i) + 1
  | .lockF => 4
  | .setFinished => 3
  | .unlockF => 2
  | .notifyF => 1
  | .done => 0

/-- A bound on the steps the consumer can take from a given point before it
either pops an item, blocks in the wait set, or returns. -/
@[simp] def ConsPC.potential (finished : Bool) (buffer : List Int) : ConsPC → Nat
  | .lock => if finished then 5 else 2
  | .waitCheck => if finished then 4 else 1
  | .asleep => if finished then 6 else if buffer.isEmpty then 0 else 3
  | .woken => if finished then 5 else 2
  | .drain => if buffer.isEmpty then (if finished then 3 else 5) else 0
  | .exitCheck => if finished then 2 else 4
  | .unlockLoop => 3
  | .exiting => 1
  | .done => 0

/-- The ranking function: every step of either thread decreases it, a spurious
wake-up increases it by at most two. -/
def rank (N : Nat) (s : State) : Nat :=
  10 * s.prod.remaining N + 6 * s.buffer.length + s.cons.potential s.finished s.buffer

/-- A schedule for `N = 5` in which the consumer first goes to sleep, is woken
by the first notification and drains the five items in two batches. -/
def schedFive : List Label :=
  [.cons, .cons] ++ List.replicate 9 .prod ++
    [.cons, .cons, .cons, .cons, .prod, .cons, .cons, .cons] ++
    List.replicate 20 .prod ++ List.replicate 8 .cons

/-- The state `schedFive` ends in. -/
def finalFive : State :=
  { buffer := [], finished := true, mtx := none, prod := .done, cons := .done,
    log := [.push 1, .push 2, .pop 1, .pop 2, .push 3, .push 4, .push 5, .setFinished,
            .pop 3, .pop 4, .pop 5] }

/-- A reachable state for `N = 1` in which the consumer is at its exit check
with `finished` true and the buffer empty. -/
def beforeBreak : State :=
  { buffer := [], finished := true, mtx := some .consumer, prod := .done, cons := .exitCheck,
    log := [.push 1, .setFinished, .pop 1] }

/-- A reachable state for `N = 5`: items 1 and 2 are consumed, item 3 is in
the buffer and the producer is about to unlock after pushing it. -/
def midFive : State :=
  { buffer := [3], finished := false, mtx := some .producer, prod := .unlock 3, cons := .lock,
    log := [.push 1, .push 2, .pop 1, .pop 2, .push 3] }

/-- Number of steps of a schedule at which `finished` changes from false to
true. -/
def flagFlips (N : Nat) : List Label → State → Nat
  | [], _ => 0
  | l :: ls, s =>
      match step N l s with
      | some t => (if s.finished = false ∧ t.finished = true then 1 else 0) + flagFlips N ls t
      | none => 0

/-- The consumer is inside `cv.wait` (lines 62-64). -/
def ConsPC.inWait : ConsPC → Bool
  | .waitCheck => true
  | .asleep => true
  | .woken => true
  | _ => false

/-- A reachable state (for any `N`) in which the consumer sleeps in the wait
set with the buffer empty and `finished` false. -/
def sleeping : State :=
  { buffer := [], finished := false, mtx := none, prod := .loopTest 1, cons := .asleep,
    log := [] }

/-- A reachable state for `N = 1`: the consumer sleeps, the producer has pushed
item 1 and released the mutex, and its `notify_one` is still to come. -/
def pendingNotify : State :=
  { buffer := [1], finished := false, mtx := none, prod := .notify 1, cons := .asleep,
    log := [.push 1] }

/-- Number of steps of a schedule at which the consumer is released from the
wait set (by `notify_one` or spuriously). -/
def wakeUps (N : Nat) : List Label → State → Nat
  | [], _ => 0
  | l :: ls, s =>
      match step N l s with
      | some t =>
          (if s.cons = ConsPC.asleep ∧ t.cons = ConsPC.woken then 1 else 0) + wakeUps N ls t
      | none => 0

/-- The consumer is in the drain loop, at the exit check or past the `break`:
it is outside `cv.wait` and not on its way back to line 59. -/
def ConsPC.leaving : ConsPC → Bool
  | .drain => true
  | .exitCheck => true
  | .exiting => true
  | .done => true
  | _ => false

/-- A reachable state for `N = 2`: the producer has returned, the consumer has
just returned from `cv.wait` with both items in the buffer. -/
def afterWait : State :=
  { buffer := [1, 2], finished := true, mtx := some .consumer, prod := .done, cons := .drain,
    log := [.push 1, .push 2, .setFinished] }

/-- The consumer has returned from `cv.wait` in the current iteration of its
loop, or has left the loop. -/
def ConsPC.pastWait : ConsPC → Bool
  | .drain => true
  | .exitCheck => true
  | .unlockLoop => true
  | .exiting => true
  | .done => true
  | _ => false

/-- A reachable state for `N = 0`: the consumer has slept, was woken
spuriously, slept again and has now been woken by the producer's only
notification. -/
def zeroWoken : State :=
  { buffer := [], finished := true, mtx := none, prod := .done, cons := .woken,
    log := [.setFinished] }

/-! ## The inductive invariant, the ranking function and shared lemmas -/

@[simp] theorem pushesOf_append (a b : List Event) :
    pushesOf (a ++ b) = pushesOf a ++ pushesOf b := by
  induction a with
  | nil => rfl
  | cons e es ih => cases e <;> simp [pushesOf, ih]

@[simp] theorem popsOf_append (a b : List Event) :
    popsOf (a ++ b) = popsOf a ++ popsOf b := by
  induction a with
  | nil => rfl
  | cons e es ih => cases e <;> simp [popsOf, ih]

@[simp] theorem flagWrites_append (a b : List Event) :
    flagWrites (a ++ b) = flagWrites a + flagWrites b := by
  induction a with
  | nil => simp [flagWrites]
  | cons e es ih =>
    cases e <;> simp [flagWrites, ih]
    omega

theorem oneTo_succ (k : Nat) : oneTo (k + 1) = oneTo k ++ [((k + 1 : Nat) : Int)] := by
  simp [oneTo, List.range_succ]

theorem oneTo_length (k : Nat) : (oneTo k).length = k := by
  simp [oneTo]

theorem inv_init (N : Nat) : Inv N init := by
  constructor <;> simp [init, pushesOf, popsOf, flagWrites, oneTo, waitPred]

theorem inv_producer {N : Nat} {s t : State} (h : Inv N s) (hs : producer N s = some t) :
    Inv N t := by
  obtain ⟨buf, fin, mtx, pp, cp, log⟩ := s
  obtain ⟨h1, h2, h3, h4, h5, h6, h7, h8, h9⟩ := h
  cases pp <;> simp at h6 <;> subst h6 <;> simp only [producer] at hs
  case loopTest i =>
    split at hs
    · cases hs
      cases cp <;> simp_all [waitPred] <;>
        constructor <;> simp_all [waitPred]
    · cases hs
      obtain rfl : i = N + 1 := by simp at h3; omega
      cases cp <;> simp_all [waitPred] <;>
        constructor <;> simp_all [waitPred]
  case lock i =>
    split at hs
    · cases hs
      cases cp <;> simp_all [waitPred] <;>
        constructor <;> simp_all [waitPred]
    · cases hs
  case push i =>
    cases hs
    obtain ⟨k, rfl⟩ : ∃ k, i = k + 1 := ⟨i - 1, by simp at h3; omega⟩
    cases cp <;> simp_all [waitPred] <;>
        constructor <;> simp_all [waitPred, oneTo_succ, pushesOf, popsOf, flagWrites]
    all_goals (rw [← List.append_assoc, h5])
  case unlock i =>
    cases hs
    cases cp <;> simp_all [waitPred] <;>
        constructor <;> simp_all [waitPred]
  case notify i =>
    cases hs
    cases cp <;> simp_all [waitPred, notifyOne] <;>
        constructor <;> simp_all [waitPred]
  case lockF =>
    split at hs
    · cases hs
      cases cp <;> simp_all [waitPred] <;>
        constructor <;> simp_all [waitPred]
    · cases hs
  case setFinished =>
    cases hs
    cases cp <;> simp_all [waitPred] <;>
        constructor <;> simp_all [waitPred, pushesOf, popsOf, flagWrites]
  case unlockF =>
    cases hs
    cases cp <;> simp_all [waitPred] <;>
        constructor <;> simp_all [waitPred]
  case notifyF =>
    cases hs
    cases cp <;> simp_all [waitPred, notifyOne] <;>
        constructor <;> simp_all [waitPred]
  case done =>
    cases hs

theorem inv_consumer {N : Nat} {s t : State} (h : Inv N s) (hs : consumer s = some t) :
    Inv N t := by
  obtain ⟨buf, fin, mtx, pp, cp, log⟩ := s
  obtain ⟨h1, h2, h3, h4, h5, h6, h7, h8, h9⟩ := h
  cases cp <;> simp only [consumer] at hs
  case lock =>
    split at hs
    · cases hs
      cases pp <;> simp_all [waitPred] <;> constructor <;> simp_all [waitPred]
    · cases hs
  case woken =>
    split at hs
    · cases hs
      cases pp <;> simp_all [waitPred] <;> constructor <;> simp_all [waitPred]
    · cases hs
  case waitCheck =>
    split at hs
    · cases hs
      cases pp <;> simp_all [waitPred] <;> constructor <;> simp_all [waitPred]
    · cases hs
      cases pp <;> simp_all [waitPred] <;> constructor <;> simp_all [waitPred]
  case asleep => cases hs
  case drain =>
    cases buf with
    | nil =>
      cases hs
      cases pp <;> simp_all [waitPred] <;> constructor <;> simp_all [waitPred]
    | cons item rest =>
      cases hs
      cases pp <;> simp_all [waitPred] <;> constructor <;>
        simp_all [waitPred, pushesOf, popsOf, flagWrites]
  case exitCheck =>
    split at hs
    · cases hs
      cases pp <;> simp_all [waitPred] <;> constructor <;> simp_all [waitPred]
    · cases hs
      cases pp <;> simp_all [waitPred] <;> constructor <;> simp_all [waitPred]
  case unlockLoop =>
    cases hs
    cases pp <;> simp_all [waitPred] <;> constructor <;> simp_all [waitPred]
  case exiting =>
    cases hs
    cases pp <;> simp_all [waitPred] <;> constructor <;> simp_all [waitPred]
  case done => cases hs

theorem inv_spuriousStep {N : Nat} {s t : State} (h : Inv N s) (hs : spuriousStep s = some t) :
    Inv N t := by
  obtain ⟨buf, fin, mtx, pp, cp, log⟩ := s
  obtain ⟨h1, h2, h3, h4, h5, h6, h7, h8, h9⟩ := h
  cases cp <;> simp only [spuriousStep] at hs <;> cases hs
  constructor <;> simp_all

theorem inv_step {N : Nat} {l : Label} {s t : State} (h : Inv N s)
    (hs : step N l s = some t) : Inv N t := by
  cases l
  · exact inv_producer h hs
  · exact inv_consumer h hs
  · exact inv_spuriousStep h hs

theorem inv_run {N : Nat} (sched : List Label) {s t : State} (h : Inv N s)
    (hs : run N sched s = some t) : Inv N t := by
  induction sched generalizing s with
  | nil =>
    simp only [run, Option.some.injEq] at hs
    exact hs ▸ h
  | cons l ls ih =>
    simp only [run] at hs
    cases hl : step N l s with
    | none => simp [hl] at hs
    | some u =>
      rw [hl] at hs
      exact ih (inv_step h hl) hs

theorem inv_reachable {N : Nat} {s : State} (h : Reachable N s) : Inv N s := by
  obtain ⟨sched, hs⟩ := h
  exact inv_run sched (inv_init N) hs

theorem run_append (N : Nat) (a b : List Label) (s : State) :
    run N (a ++ b) s = (run N a s).bind (run N b) := by
  induction a generalizing s with
  | nil => rfl
  | cons l ls ih =>
    simp only [List.cons_append, run]
    cases step N l s with
    | none => rfl
    | some u => exact ih u

theorem reachable_init (N : Nat) : Reachable N init := ⟨[], rfl⟩

theorem reachable_run {N : Nat} {s t : State} (sched : List Label) (h : Reachable N s)
    (hs : run N sched s = some t) : Reachable N t := by
  obtain ⟨p, hp⟩ := h
  exact ⟨p ++ sched, by rw [run_append, hp]; exact hs⟩

theorem reachable_step {N : Nat} {s t : State} (l : Label) (h : Reachable N s)
    (hs : step N l s = some t) : Reachable N t :=
  reachable_run [l] h (by simp [run, hs])

theorem rank_producer {N : Nat} {s t : State} (h : Inv N s) (hs : producer N s = some t) :
    rank N t < rank N s := by
  obtain ⟨buf, fin, mtx, pp, cp, log⟩ := s
  obtain ⟨h1, h2, h3, h4, h5, h6, h7, h8, h9⟩ := h
  cases pp <;> simp at h6 <;> subst h6 <;> simp only [producer] at hs
  case loopTest i =>
    simp at h3
    split at hs <;> cases hs <;> simp [rank]
    all_goals omega
  case lock i =>
    split at hs <;> cases hs
    simp [rank]
  case push i =>
    cases hs
    cases cp <;> simp_all [rank] <;> (try split) <;> omega
  case unlock i =>
    cases hs
    simp [rank]
  case notify i =>
    cases hs
    cases cp <;> simp_all [rank, notifyOne] <;> (try split) <;> omega
  case lockF =>
    split at hs <;> cases hs
    simp [rank]
  case setFinished =>
    cases hs
    cases cp <;> simp_all [rank] <;> (try split) <;> omega
  case unlockF =>
    cases hs
    simp [rank]
  case notifyF =>
    cases hs
    cases cp <;> simp_all [rank, notifyOne]
    omega
  case done =>
    cases hs

theorem rank_consumer {N : Nat} {s t : State} (h : Inv N s) (hs : consumer s = some t) :
    rank N t < rank N s := by
  obtain ⟨buf, fin, mtx, pp, cp, log⟩ := s
  have h9 := h.phase
  have h6 := h.flag
  have h2 := h.excl
  cases cp <;> simp only [consumer] at hs
  case lock =>
    split at hs <;> cases hs
    cases fin <;> simp [rank]
  case woken =>
    split at hs <;> cases hs
    cases fin <;> simp [rank]
  case waitCheck =>
    split at hs <;> cases hs <;> cases fin <;> cases buf <;> simp_all [rank, waitPred]
  case asleep => cases hs
  case drain =>
    cases buf with
    | nil =>
      cases hs
      cases fin <;> simp [rank]
    | cons item rest =>
      cases hs
      cases fin <;> cases rest <;> simp [rank]
  case exitCheck =>
    split at hs <;> cases hs <;> cases fin <;> simp_all [rank]
  case unlockLoop =>
    cases hs
    simp_all [rank]
  case exiting =>
    cases hs
    simp [rank]
  case done => cases hs

theorem rank_spuriousStep {N : Nat} {s t : State} (hs : spuriousStep s = some t) :
    rank N t ≤ rank N s + 2 := by
  obtain ⟨buf, fin, mtx, pp, cp, log⟩ := s
  cases cp <;> simp only [spuriousStep] at hs <;> cases hs
  cases fin <;> simp [rank]

theorem rank_run {N : Nat} (sched : List Label) {s t : State} (h : Inv N s)
    (hs : run N sched s = some t) :
    sched.length + rank N t ≤ rank N s + 3 * sched.count Label.spurious := by
  induction sched generalizing s with
  | nil =>
    simp only [run, Option.some.injEq] at hs
    subst hs
    simp
  | cons l ls ih =>
    simp only [run] at hs
    cases hl : step N l s with
    | none => simp [hl] at hs
    | some u =>
      rw [hl] at hs
      have h1 := ih (inv_step h hl) hs
      cases l
      · have h2 := rank_producer h hl
        simp
        omega
      · have h2 := rank_consumer h hl
        simp
        omega
      · have h2 : rank N u ≤ rank N s + 2 := rank_spuriousStep hl
        simp
        omega

theorem rank_init (N : Nat) : rank N init = 50 * N + 52 := by
  simp [rank, init]
  omega

/-- Unless both threads have returned, one of them has an enabled step. -/
theorem enabled_of_inv {N : Nat} {s : State} (h : Inv N s)
    (hd : ¬ (s.prod = .done ∧ s.cons = .done)) :
    (producer N s).isSome = true ∨ (consumer s).isSome = true := by
  obtain ⟨buf, fin, mtx, pp, cp, log⟩ := s
  obtain ⟨h1, h2, h3, h4, h5, h6, h7, h8, h9⟩ := h
  cases pp <;> cases cp <;> simp_all [producer, consumer, waitPred] <;>
    (try split) <;> simp_all

/-- From every state that satisfies the invariant the two threads can run to
completion without any spurious wake-up. -/
theorem completion_of_inv (N : Nat) : ∀ (n : Nat) (s : State), Inv N s → rank N s ≤ n →
    ∃ sched t, run N sched s = some t ∧ t.prod = .done ∧ t.cons = .done ∧
      sched.count Label.spurious = 0 := by
  intro n
  induction n with
  | zero =>
    intro s h hn
    by_cases hd : s.prod = .done ∧ s.cons = .done
    · exact ⟨[], s, rfl, hd.1, hd.2, rfl⟩
    · exfalso
      rcases enabled_of_inv h hd with he | he
      · obtain ⟨u, hu⟩ := Option.isSome_iff_exists.mp he
        have := rank_producer h hu
        omega
      · obtain ⟨u, hu⟩ := Option.isSome_iff_exists.mp he
        have := rank_consumer h hu
        omega
  | succ n ih =>
    intro s h hn
    by_cases hd : s.prod = .done ∧ s.cons = .done
    · exact ⟨[], s, rfl, hd.1, hd.2, rfl⟩
    · rcases enabled_of_inv h hd with he | he
      · obtain ⟨u, hu⟩ := Option.isSome_iff_exists.mp he
        have hr := rank_producer h hu
        obtain ⟨sched, t, h1, h2, h3, h4⟩ :=
          ih u (inv_producer h hu) (by omega)
        exact ⟨Label.prod :: sched, t, by simp [run, step, hu, h1], h2, h3, by simp [h4]⟩
      · obtain ⟨u, hu⟩ := Option.isSome_iff_exists.mp he
        have hr := rank_consumer h hu
        obtain ⟨sched, t, h1, h2, h3, h4⟩ :=
          ih u (inv_consumer h hu) (by omega)
        exact ⟨Label.cons :: sched, t, by simp [run, step, hu, h1], h2, h3, by simp [h4]⟩

/-- A state in which neither thread has an enabled step is one in which both
have returned. -/
theorem stuck_done {N : Nat} {t : State} (h : Inv N t) (hp : producer N t = none)
    (hc : consumer t = none) : t.cons = ConsPC.done ∧ t.prod = ProdPC.done := by
  by_contra hd
  have hd2 : ¬ (t.prod = ProdPC.done ∧ t.cons = ConsPC.done) := fun hh => hd ⟨hh.2, hh.1⟩
  rcases enabled_of_inv h hd2 with he | he
  · simp [hp] at he
  · simp [hc] at he

theorem run_replicate_add (N : Nat) (a b : Nat) (l : Label) (s : State) :
    run N (List.replicate (a + b) l) s = (run N (List.replicate a l) s).bind
      (run N (List.replicate b l)) := by
  rw [List.replicate_add, run_append]

/-- The drain loop, `j` iterations. -/
theorem drain_steps (N : Nat) (fin : Bool) (mtx : Option Thread) (pp : ProdPC) :
    ∀ (q : List Int) (log : List Event) (j : Nat), j ≤ q.length →
      run N (List.replicate j Label.cons)
          { buffer := q, finished := fin, mtx := mtx, prod := pp, cons := .drain, log := log } =
        some { buffer := q.drop j, finished := fin, mtx := mtx, prod := pp, cons := .drain,
               log := log ++ (q.take j).map Event.pop } := by
  intro q log j
  induction j generalizing q log with
  | zero => intro _; simp [run]
  | succ j ih =>
    intro hj
    cases q with
    | nil => simp at hj
    | cons x rest =>
      simp only [List.replicate, run, step, consumer]
      rw [ih rest _ (by simpa using hj)]
      simp

/-- The loop variable of the producer stays within `1 .. N + 1`. -/
theorem counter_le {N : Nat} {s : State} (hr : Reachable N s) : s.prod.counterOk N :=
  (inv_reachable hr).counter

/-- For every `N` some interleaving without spurious wake-ups runs both
threads to completion. -/
theorem completion_reachable (N : Nat) :
    ∃ s, Reachable N s ∧ s.prod = ProdPC.done ∧ s.cons = ConsPC.done := by
  obtain ⟨sched, t, h1, h2, h3, _⟩ :=
    completion_of_inv N (rank N init) init (inv_init N) (le_refl _)
  exact ⟨t, ⟨sched, h1⟩, h2, h3⟩

/-- Every schedule from the initial state has at most `50 * N + 52` steps plus
three per spurious wake-up. -/
theorem schedule_bound (N : Nat) (sched : List Label) (t : State)
    (hs : run N sched init = some t) :
    sched.length ≤ 50 * N + 52 + 3 * sched.count Label.spurious := by
  have h1 := rank_run sched (inv_init N) hs
  rw [rank_init] at h1
  omega

theorem finished_mono {N : Nat} {l : Label} {s t : State} (hs : step N l s = some t)
    (hf : s.finished = true) : t.finished = true := by
  obtain ⟨buf, fin, mtx, pp, cp, log⟩ := s
  cases l <;> simp only [step] at hs
  · cases pp <;> simp only [producer] at hs <;> (try split at hs) <;> cases hs <;> simp_all
  · cases cp <;> simp only [consumer] at hs <;> (try split at hs) <;> cases hs <;> simp_all
  · cases cp <;> simp only [spuriousStep] at hs <;> cases hs
    simp_all

theorem oneTo_getElem (k j : Nat) (h : j < (oneTo k).length) :
    (oneTo k)[j] = ((j + 1 : Nat) : Int) := by
  simp [oneTo]

/-! ## C1: conservation -/

/-- C1 (conservation): in every state reachable by an interleaving of
`producer()` and `consumer()` from the initial state in which the consumer has
executed its `break`, the items it has popped, in the order of the pops, are
exactly `[1, 2, ..., N]`: there are `N` of them and the one at position `j`
(counted from zero) is `j + 1`. -/
theorem conservation (N : Nat) (s : State) (hr : Reachable N s)
    (ht : s.cons.terminal = true) :
    popsOf s.log = oneTo N ∧ (popsOf s.log).length = N ∧
    ∀ j, j < N → (popsOf s.log)[j]? = some ((j : Int) + 1) := by
  have h := inv_reachable hr
  have hp : popsOf s.log = oneTo N := by
    obtain ⟨buf, fin, mtx, pp, cp, log⟩ := s
    have h5 := h.fifo
    have h6 := h.flag
    have h9 := h.phase
    cases cp <;> simp [ConsPC.terminal] at ht <;> cases pp <;> simp_all
  refine ⟨hp, by rw [hp, oneTo_length], fun j hj => ?_⟩
  rw [hp]
  simp [oneTo, hj]

theorem conservation_witness :
    Reachable 5 finalFive ∧ finalFive.cons.terminal = true ∧
      popsOf finalFive.log = [1, 2, 3, 4, 5] :=
  ⟨⟨schedFive, by decide⟩, by decide,
    (conservation 5 finalFive ⟨schedFive, by decide⟩ (by decide)).1⟩

/-! ## C2: no premature termination -/

/-- C2 (no premature termination): in every reachable state in which the
consumer has executed its `break`, `finished` is true and the buffer is empty;
and the only step that takes the consumer into that terminal state is the exit
check of line 74, taken in a state where `finished` is true and the buffer is
empty. -/
theorem no_premature_termination (N : Nat) (s : State) (hr : Reachable N s) :
    (s.cons.terminal = true → s.finished = true ∧ s.buffer = []) ∧
    (∀ l t, step N l s = some t → s.cons.terminal = false → t.cons.terminal = true →
      l = Label.cons ∧ s.cons = ConsPC.exitCheck ∧ s.finished = true ∧ s.buffer = [] ∧
      t.finished = true ∧ t.buffer = []) := by
  have h := inv_reachable hr
  obtain ⟨buf, fin, mtx, pp, cp, log⟩ := s
  have h9 := h.phase
  refine ⟨?_, ?_⟩
  · intro ht
    cases cp <;> simp [ConsPC.terminal] at ht <;> simp_all
  · intro l t hs h0 h1
    cases l <;> simp only [step] at hs
    · cases pp <;> simp only [producer] at hs <;> (try split at hs) <;> cases hs <;>
        cases cp <;> simp_all [ConsPC.terminal, notifyOne]
    · cases cp <;> simp only [consumer] at hs <;> (try split at hs) <;> (try cases hs) <;>
        simp_all [ConsPC.terminal]
    · cases cp <;> simp only [spuriousStep] at hs <;> cases hs
      simp_all [ConsPC.terminal]

theorem no_premature_termination_witness :
    Reachable 1 beforeBreak ∧
    ((beforeBreak.cons.terminal = true → beforeBreak.finished = true ∧ beforeBreak.buffer = []) ∧
     (∀ l t, step 1 l beforeBreak = some t → beforeBreak.cons.terminal = false →
        t.cons.terminal = true →
        l = Label.cons ∧ beforeBreak.cons = ConsPC.exitCheck ∧ beforeBreak.finished = true ∧
        beforeBreak.buffer = [] ∧ t.finished = true ∧ t.buffer = [])) :=
  ⟨⟨List.replicate 10 .prod ++ List.replicate 4 .cons, by decide⟩,
    no_premature_termination 1 beforeBreak
      ⟨List.replicate 10 .prod ++ List.replicate 4 .cons, by decide⟩⟩

/-! ## C3: termination once `finished` is set -/

theorem rank_spuriousStep_finished {N : Nat} {s t : State} (hf : s.finished = true)
    (hs : spuriousStep s = some t) : rank N t < rank N s := by
  obtain ⟨buf, fin, mtx, pp, cp, log⟩ := s
  simp only at hf
  subst hf
  cases cp <;> simp only [spuriousStep] at hs <;> cases hs
  simp [rank]

theorem rank_run_finished {N : Nat} (sched : List Label) {s t : State} (h : Inv N s)
    (hf : s.finished = true) (hs : run N sched s = some t) :
    sched.length + rank N t ≤ rank N s := by
  induction sched generalizing s with
  | nil =>
    simp only [run, Option.some.injEq] at hs
    subst hs
    simp
  | cons l ls ih =>
    simp only [run] at hs
    cases hl : step N l s with
    | none => simp [hl] at hs
    | some u =>
      rw [hl] at hs
      have h1 := ih (inv_step h hl) (finished_mono hl hf) hs
      have h2 : rank N u < rank N s := by
        cases l
        · exact rank_producer h hl
        · exact rank_consumer h hl
        · exact rank_spuriousStep_finished hf hl
      simp
      omega

theorem rank_le_of_finished {N : Nat} {s : State} (h : Inv N s) (hf : s.finished = true) :
    rank N s ≤ 6 * s.buffer.length + 26 := by
  have h6 := h.flag
  obtain ⟨buf, fin, mtx, pp, cp, log⟩ := s
  simp only at hf
  subst hf
  cases pp <;> simp at h6 <;> cases cp <;> simp [rank] <;> (try split) <;> omega

theorem wakeUps_le_of_finished (N : Nat) (sched : List Label) (s : State)
    (hf : s.finished = true) :
    wakeUps N sched s ≤ if s.cons = ConsPC.asleep then 1 else 0 := by
  induction sched generalizing s with
  | nil => simp [wakeUps]
  | cons l ls ih =>
    simp only [wakeUps]
    cases hl : step N l s with
    | none => simp
    | some t =>
      have h1 := ih t (finished_mono hl hf)
      have h2 : (s.cons = ConsPC.asleep → t.cons = ConsPC.asleep ∨ t.cons = ConsPC.woken) ∧
          (s.cons ≠ ConsPC.asleep → t.cons ≠ ConsPC.asleep) := by
        obtain ⟨buf, fin, mtx, pp, cp, log⟩ := s
        simp only at hf
        subst hf
        cases l <;> simp only [step] at hl
        · cases pp <;> simp only [producer] at hl <;> (try split at hl) <;> cases hl <;>
            cases cp <;> simp [notifyOne]
        · cases cp <;> simp only [consumer] at hl <;> (try split at hl) <;> cases hl <;>
            simp_all [waitPred]
        · cases cp <;> simp only [spuriousStep] at hl <;> cases hl
          simp
      simp only
      by_cases hc : s.cons = ConsPC.asleep
      · rcases h2.1 hc with h3 | h3
        · simp [hc, h3] at h1 ⊢
          exact h1
        · simp [hc, h3] at h1 ⊢
          exact h1
      · have h3 := h2.2 hc
        simp [hc, h3] at h1 ⊢
        exact h1

theorem leaving_step {N : Nat} {l : Label} {s t : State} (h : Inv N s)
    (hf : s.finished = true) (hc : s.cons.leaving = true) (hs : step N l s = some t) :
    t.cons.leaving = true := by
  have h9 := h.phase
  obtain ⟨buf, fin, mtx, pp, cp, log⟩ := s
  simp only at hf
  subst hf
  clear h
  cases l <;> simp only [step] at hs
  · cases pp <;> simp only [producer] at hs <;> (try split at hs) <;> cases hs <;>
      cases cp <;> simp_all [notifyOne, ConsPC.leaving]
  · cases cp <;> simp only [consumer] at hs <;> (try split at hs) <;> cases hs <;>
      simp_all [ConsPC.leaving]
  · cases cp <;> simp only [spuriousStep] at hs <;> cases hs
    simp [ConsPC.leaving] at hc

theorem leaving_run {N : Nat} (sched : List Label) {s t : State} (h : Inv N s)
    (hf : s.finished = true) (hc : s.cons.leaving = true) (hs : run N sched s = some t) :
    t.cons.leaving = true := by
  induction sched generalizing s with
  | nil =>
    simp only [run, Option.some.injEq] at hs
    exact hs ▸ hc
  | cons l ls ih =>
    simp only [run] at hs
    cases hl : step N l s with
    | none => simp [hl] at hs
    | some u =>
      rw [hl] at hs
      exact ih (inv_step h hl) (finished_mono hl hf) (leaving_step h hf hc hl) hs

/-- C3 (termination): from every reachable state in which `finished` is true,
every continuation of the interleaving, spurious wake-ups included, has at
most `6 * buffer.length + 26` steps and contains at most one wake-up of the
consumer; a continuation after which neither thread has an enabled step ends
with both threads returned, and some continuation does reach that state.  If
the consumer is at the predicate check it returns from `cv.wait` at once; and
when it has returned from `cv.wait` (it is at the head of the drain loop) its
next `buffer.length + 2` steps drain the buffer, find
`finished && buffer.empty()` true and execute the `break`, and whatever the
producer does in between the consumer never enters `cv.wait` again. -/
theorem termination_after_finished (N : Nat) (s : State) (hr : Reachable N s)
    (hf : s.finished = true) :
    (∀ sched t, run N sched s = some t →
      sched.length ≤ 6 * s.buffer.length + 26 ∧ wakeUps N sched s ≤ 1) ∧
    (∀ sched t, run N sched s = some t → producer N t = none → consumer t = none →
      t.cons = ConsPC.done ∧ t.prod = ProdPC.done) ∧
    (∃ sched t, run N sched s = some t ∧ t.cons = ConsPC.done ∧ t.prod = ProdPC.done) ∧
    (s.cons = ConsPC.waitCheck → consumer s = some { s with cons := ConsPC.drain }) ∧
    (s.cons = ConsPC.drain →
      run N (List.replicate (s.buffer.length + 2) Label.cons) s =
        some { s with buffer := [], cons := ConsPC.exiting,
                      log := s.log ++ s.buffer.map Event.pop } ∧
      ∀ sched t, run N sched s = some t → t.cons.leaving = true) := by
  have h := inv_reachable hr
  refine ⟨?_, ?_, ?_, ?_, ?_⟩
  · intro sched t hs
    have h1 := rank_run_finished sched h hf hs
    have h2 := rank_le_of_finished h hf
    have h3 := wakeUps_le_of_finished N sched s hf
    refine ⟨by omega, ?_⟩
    split at h3 <;> omega
  · intro sched t hs hp hc
    exact stuck_done (inv_run sched h hs) hp hc
  · obtain ⟨sched, t, h1, h2, h3, _⟩ := completion_of_inv N (rank N s) s h (le_refl _)
    exact ⟨sched, t, h1, h3, h2⟩
  · intro hc
    obtain ⟨buf, fin, mtx, pp, cp, log⟩ := s
    simp only at hc hf
    subst hc hf
    simp [consumer, waitPred]
  · intro hc
    refine ⟨?_, fun sched t hs => leaving_run sched h hf (by rw [hc]; rfl) hs⟩
    obtain ⟨buf, fin, mtx, pp, cp, log⟩ := s
    simp only at hc hf
    subst hc hf
    rw [run_replicate_add, drain_steps N true mtx pp buf log buf.length (le_refl _)]
    simp [List.replicate, run, step, consumer]

theorem termination_after_finished_witness :
    Reachable 2 afterWait ∧ afterWait.finished = true ∧
    (run 2 (List.replicate (afterWait.buffer.length + 2) Label.cons) afterWait =
        some { afterWait with buffer := [], cons := ConsPC.exiting,
                              log := afterWait.log ++ afterWait.buffer.map Event.pop } ∧
      ∀ sched t, run 2 sched afterWait = some t → t.cons.leaving = true) :=
  ⟨⟨List.replicate 15 .prod ++ [.cons, .cons], by decide⟩, rfl,
    (termination_after_finished 2 afterWait
      ⟨List.replicate 15 .prod ++ [.cons, .cons], by decide⟩ rfl).2.2.2.2 rfl⟩

/-! ## C4: the queue invariant -/

/-- C4 (queue invariant I1): in every reachable state the items popped so far
followed by the buffer contents (front to back) are `[1, ..., k]`, where `k`
is the number of pushes performed so far, the pushes themselves were
`1, ..., k` in this order, and `k ≤ N`. -/
theorem queue_invariant (N : Nat) (s : State) (hr : Reachable N s) :
    popsOf s.log ++ s.buffer = oneTo (pushesOf s.log).length ∧
    pushesOf s.log = oneTo (pushesOf s.log).length ∧
    (pushesOf s.log).length ≤ N := by
  have h := inv_reachable hr
  have h3 := h.counter
  have h4 := h.pushes
  have h5 := h.fifo
  have hk : (pushesOf s.log).length = s.prod.pushed N := by rw [h4, oneTo_length]
  rw [hk]
  refine ⟨h5, h4, ?_⟩
  obtain ⟨buf, fin, mtx, pp, cp, log⟩ := s
  cases pp <;> simp at h3 ⊢ <;> omega

theorem queue_invariant_witness :
    Reachable 5 midFive ∧
    (popsOf midFive.log ++ midFive.buffer = oneTo (pushesOf midFive.log).length ∧
     pushesOf midFive.log = oneTo (pushesOf midFive.log).length ∧
     (pushesOf midFive.log).length ≤ 5) :=
  ⟨⟨schedFive.take 22, by decide⟩, queue_invariant 5 midFive ⟨schedFive.take 22, by decide⟩⟩

/-! ## C5: the completion flag -/

theorem flagFlips_le (N : Nat) (sched : List Label) (s : State) :
    flagFlips N sched s ≤ if s.finished = true then 0 else 1 := by
  induction sched generalizing s with
  | nil => simp [flagFlips]
  | cons l ls ih =>
    simp only [flagFlips]
    cases hl : step N l s with
    | none => simp
    | some t =>
      have h1 := ih t
      have h2 := @finished_mono N l s t hl
      cases hs : s.finished <;> cases ht : t.finished <;> simp_all

/-- C5 (completion flag): `finished` is initially false; no step changes it
from true to false; along every schedule it changes from false to true at most
once, and the statement `finished = true` is executed at most once; in every
reachable state with `finished` true all `N` pushes have been performed; from
such a state no step pushes or appends to the buffer; and once the consumer
has executed its `break` no step changes the buffer. -/
theorem completion_flag (N : Nat) :
    init.finished = false ∧
    (∀ l s t, step N l s = some t → s.finished = true → t.finished = true) ∧
    (∀ sched, flagFlips N sched init ≤ 1) ∧
    (∀ s, Reachable N s → flagWrites s.log ≤ 1) ∧
    (∀ s, Reachable N s → s.finished = true →
      pushesOf s.log = oneTo N ∧ (pushesOf s.log).length = N) ∧
    (∀ l s t, Reachable N s → s.finished = true → step N l s = some t →
      pushesOf t.log = pushesOf s.log ∧ List.IsSuffix t.buffer s.buffer) ∧
    (∀ l s t, Reachable N s → s.cons.terminal = true → step N l s = some t →
      t.buffer = s.buffer) := by
  refine ⟨rfl, fun l s t hs hf => finished_mono hs hf, fun sched => ?_, ?_, ?_, ?_, ?_⟩
  · simpa [init] using flagFlips_le N sched init
  · intro s hr
    have h := (inv_reachable hr).writes
    split at h <;> omega
  · intro s hr hf
    have h := inv_reachable hr
    have h4 := h.pushes
    have h6 := h.flag
    have : s.prod.pushed N = N := by
      obtain ⟨buf, fin, mtx, pp, cp, log⟩ := s
      cases pp <;> simp_all
    rw [this] at h4
    exact ⟨h4, by rw [h4, oneTo_length]⟩
  · intro l s t hr hf hs
    have h := inv_reachable hr
    have h6 := h.flag
    obtain ⟨buf, fin, mtx, pp, cp, log⟩ := s
    cases l <;> simp only [step] at hs
    · cases pp <;> simp_all [producer] <;> subst hs <;> simp
    · cases cp <;> simp only [consumer] at hs <;> (try split at hs) <;> cases hs <;>
        simp [pushesOf]
    · cases cp <;> simp only [spuriousStep] at hs <;> cases hs
      simp
  · intro l s t hr ht hs
    have h := inv_reachable hr
    have h6 := h.flag
    have h9 := h.phase
    obtain ⟨buf, fin, mtx, pp, cp, log⟩ := s
    cases cp <;> simp [ConsPC.terminal] at ht <;> cases l <;> simp only [step] at hs
    all_goals first
      | (simp only [consumer] at hs; cases hs <;> rfl)
      | (simp only [spuriousStep] at hs; cases hs)
      | (cases pp <;> simp_all [producer] <;> subst hs <;> simp)

/-! ## C6: the producer contract -/

/-- One iteration of the producer loop, executed without interruption. -/
theorem producer_iteration (N i : Nat) (hi : i ≤ N) (buf : List Int) (fin : Bool) (cp : ConsPC)
    (log : List Event) :
    run N (List.replicate 5 Label.prod)
        { buffer := buf, finished := fin, mtx := none, prod := .loopTest i, cons := cp,
          log := log } =
      some { buffer := buf ++ [(i : Int)], finished := fin, mtx := none,
             prod := .loopTest (i + 1), cons := notifyOne cp, log := log ++ [.push i] } := by
  simp [List.replicate, run, step, producer, hi]

/-- The first `k` iterations of the producer loop, executed with no consumer
step in between. -/
theorem producer_iterations (N k : Nat) (hk : k ≤ N) :
    run N (List.replicate (5 * k) Label.prod) init =
      some { buffer := oneTo k, finished := false, mtx := none, prod := .loopTest (k + 1),
             cons := .lock, log := (oneTo k).map Event.push } := by
  induction k with
  | zero => rfl
  | succ k ih =>
    rw [Nat.mul_succ, run_replicate_add, ih (by omega)]
    simp only [Option.bind]
    rw [producer_iteration N (k + 1) hk]
    simp [oneTo_succ, notifyOne]

/-- C6 (producer contract): run from the initial state with no consumer step,
`producer()` executes `5 * N + 5` steps and returns; after the `5 * N` steps of
its loop it has pushed exactly `1, ..., N` in this order and has not written
`finished`; it then writes `finished = true` exactly once and ends with
`buffer = [1, ..., N]`.  Whenever the mutex is free, or owned by the producer,
and the producer has not returned, its next step is enabled, and which
statement it executes next depends only on its own program counter and the
mutex, not on the buffer, `finished` or the consumer. -/
theorem producer_contract (N : Nat) :
    run N (List.replicate (5 * N) Label.prod) init =
      some { buffer := oneTo N, finished := false, mtx := none, prod := .loopTest (N + 1),
             cons := .lock, log := (oneTo N).map Event.push } ∧
    run N (List.replicate (5 * N + 5) Label.prod) init =
      some { buffer := oneTo N, finished := true, mtx := none, prod := .done,
             cons := .lock, log := (oneTo N).map Event.push ++ [Event.setFinished] } ∧
    run N (List.replicate (5 * N + 6) Label.prod) init = none ∧
    (∀ s : State, s.mtx = none ∨ s.prod.holds = true → s.prod ≠ .done →
      (producer N s).isSome = true) ∧
    (∀ s u : State, s.prod = u.prod → s.mtx = u.mtx →
      (producer N s).map State.prod = (producer N u).map State.prod) := by
  refine ⟨producer_iterations N N (le_refl N), ?_, ?_, ?_, ?_⟩
  · rw [run_replicate_add, producer_iterations N N (le_refl N)]
    simp [List.replicate, run, step, producer, notifyOne]
  · rw [run_replicate_add, producer_iterations N N (le_refl N)]
    simp [List.replicate, run, step, producer, notifyOne]
  · intro s hm hd
    obtain ⟨buf, fin, mtx, pp, cp, log⟩ := s
    cases pp <;> simp_all [producer]
    all_goals split <;> rfl
  · intro s u hp hm
    obtain ⟨buf, fin, mtx, pp, cp, log⟩ := s
    obtain ⟨buf2, fin2, mtx2, pp2, cp2, log2⟩ := u
    simp only at hp hm
    subst hp hm
    cases pp <;> simp [producer]
    all_goals split <;> simp

/-! ## C7: the case `N = 0` -/

theorem zero_empty {s : State} (h : Inv 0 s) :
    s.buffer = [] ∧ pushesOf s.log = [] ∧ popsOf s.log = [] := by
  have h3 := h.counter
  have h4 := h.pushes
  have h5 := h.fifo
  have hk : s.prod.pushed 0 = 0 := by
    obtain ⟨buf, fin, mtx, pp, cp, log⟩ := s
    cases pp <;> simp at h3 ⊢ <;> omega
  rw [hk] at h4 h5
  simp [oneTo] at h4 h5
  exact ⟨h5.2, h4, h5.1⟩

theorem log_of_no_items (l : List Event) (h1 : pushesOf l = []) (h2 : popsOf l = []) :
    l = List.replicate (flagWrites l) Event.setFinished := by
  induction l with
  | nil => rfl
  | cons e es ih =>
    cases e
    · simp [pushesOf] at h1
    · simp [popsOf] at h2
    · simp only [pushesOf, popsOf] at h1 h2
      simp only [flagWrites, List.replicate]
      rw [← ih h1 h2]

theorem zero_pastWait_step {l : Label} {s t : State} (h : Inv 0 s)
    (hp : s.cons.pastWait = true → s.finished = true) (hs : step 0 l s = some t) :
    t.cons.pastWait = true → t.finished = true := by
  have hb := (zero_empty h).1
  obtain ⟨buf, fin, mtx, pp, cp, log⟩ := s
  simp only at hb
  subst hb
  clear h
  cases l <;> simp only [step] at hs
  · cases pp <;> simp only [producer] at hs <;> (try split at hs) <;> cases hs <;>
      cases cp <;> simp_all [notifyOne, ConsPC.pastWait]
  · cases cp <;> simp only [consumer] at hs <;> (try split at hs) <;> cases hs <;>
      simp_all [ConsPC.pastWait, waitPred]
  · cases cp <;> simp only [spuriousStep] at hs <;> cases hs
    simp [ConsPC.pastWait]

theorem zero_pastWait_run (sched : List Label) {s t : State} (h : Inv 0 s)
    (hp : s.cons.pastWait = true → s.finished = true) (hs : run 0 sched s = some t) :
    t.cons.pastWait = true → t.finished = true := by
  induction sched generalizing s with
  | nil =>
    simp only [run, Option.some.injEq] at hs
    exact hs ▸ hp
  | cons l ls ih =>
    simp only [run] at hs
    cases hl : step 0 l s with
    | none => simp [hl] at hs
    | some u =>
      rw [hl] at hs
      exact ih (inv_step h hl) (zero_pastWait_step h hp hl) hs

/-- C7 (`N = 0`): with `MAX_ITEMS = 0` the producer alone executes five steps,
none of them a push, and sets `finished`.  In every reachable state the buffer
is empty and nothing has been pushed or popped; the consumer is past its wait
only when `finished` is true; a state in which neither thread has an enabled
step has both threads returned; both threads can always run to completion from
the current state without a spurious wake-up, and then the log holds the
single write of `finished` and no pop; every schedule from the initial state
has at most `52` steps plus three per spurious wake-up. -/
theorem zero_items (s : State) (hr : Reachable 0 s) :
    run 0 (List.replicate 5 Label.prod) init =
      some { buffer := [], finished := true, mtx := none, prod := .done, cons := .lock,
             log := [Event.setFinished] } ∧
    (s.buffer = [] ∧ pushesOf s.log = [] ∧ popsOf s.log = []) ∧
    (s.cons.pastWait = true → s.finished = true ∧ s.buffer = []) ∧
    (producer 0 s = none → consumer s = none →
      s.cons = ConsPC.done ∧ s.prod = ProdPC.done ∧ s.log = [Event.setFinished]) ∧
    (∃ sched t, run 0 sched s = some t ∧ sched.count Label.spurious = 0 ∧
      t.cons = ConsPC.done ∧ t.prod = ProdPC.done ∧ t.log = [Event.setFinished] ∧
      popsOf t.log = []) ∧
    (∀ sched t, run 0 sched init = some t →
      sched.length ≤ 52 + 3 * sched.count Label.spurious) := by
  have h := inv_reachable hr
  have hlog : ∀ t : State, Inv 0 t → t.cons = ConsPC.done → t.log = [Event.setFinished] := by
    intro t ht hc
    have h7 := ht.writes
    have h9 := ht.phase
    have h0 := zero_empty ht
    have hl := log_of_no_items t.log h0.2.1 h0.2.2
    rw [hc] at h9
    simp only [ConsPC.phaseOk] at h9
    rw [h9.2] at h7
    simp only [if_true] at h7
    rw [h7] at hl
    exact hl
  refine ⟨by decide, zero_empty h, ?_, ?_, ?_, ?_⟩
  · intro hp
    obtain ⟨sched, hs⟩ := hr
    have := zero_pastWait_run sched (inv_init 0) (by simp [init, ConsPC.pastWait]) hs hp
    exact ⟨this, (zero_empty h).1⟩
  · intro hp hc
    have hd := stuck_done h hp hc
    exact ⟨hd.1, hd.2, hlog s h hd.1⟩
  · obtain ⟨sched, t, h1, h2, h3, h4⟩ := completion_of_inv 0 (rank 0 s) s h (le_refl _)
    have ht := inv_run sched h h1
    exact ⟨sched, t, h1, h4, h3, h2, hlog t ht h3, (zero_empty ht).2.2⟩
  · intro sched t hs
    have h1 := schedule_bound 0 sched t hs
    omega

theorem zero_items_witness :
    Reachable 0 zeroWoken ∧
    (zeroWoken.buffer = [] ∧ pushesOf zeroWoken.log = [] ∧ popsOf zeroWoken.log = []) :=
  ⟨⟨[.cons, .cons, .spurious, .cons, .cons, .prod, .prod, .prod, .prod, .prod], by decide⟩,
    (zero_items zeroWoken
      ⟨[.cons, .cons, .spurious, .cons, .cons, .prod, .prod, .prod, .prod, .prod],
        by decide⟩).2.1⟩

/-! ## C8: the drain loop -/

/-- C8 (drain): started at the loop test of line 67 with buffer `q`, the
consumer executes the loop body exactly `q.length` times: after `j ≤ q.length`
iterations it is still in the loop, has popped the first `j` items of `q` in
order and the buffer holds the rest; after `q.length` iterations the buffer is
empty and the next step is the failing loop test, which leaves the loop.
`finished`, the mutex and the producer are unchanged throughout. -/
theorem drain_loop (N : Nat) (q : List Int) (fin : Bool) (mtx : Option Thread) (pp : ProdPC)
    (log : List Event) :
    (∀ j, j ≤ q.length →
      run N (List.replicate j Label.cons)
          { buffer := q, finished := fin, mtx := mtx, prod := pp, cons := .drain, log := log } =
        some { buffer := q.drop j, finished := fin, mtx := mtx, prod := pp, cons := .drain,
               log := log ++ (q.take j).map Event.pop }) ∧
    (∀ j, j < q.length → q.drop j ≠ []) ∧
    run N (List.replicate q.length Label.cons)
        { buffer := q, finished := fin, mtx := mtx, prod := pp, cons := .drain, log := log } =
      some { buffer := [], finished := fin, mtx := mtx, prod := pp, cons := .drain,
             log := log ++ q.map Event.pop } ∧
    run N (List.replicate (q.length + 1) Label.cons)
        { buffer := q, finished := fin, mtx := mtx, prod := pp, cons := .drain, log := log } =
      some { buffer := [], finished := fin, mtx := mtx, prod := pp, cons := .exitCheck,
             log := log ++ q.map Event.pop } ∧
    popsOf (log ++ q.map Event.pop) = popsOf log ++ q := by
  have key := drain_steps N fin mtx pp
  have hall := key q log q.length (le_refl _)
  simp only [List.drop_length, List.take_length] at hall
  have hpops : ∀ r : List Int, popsOf (r.map Event.pop) = r := by
    intro r
    induction r with
    | nil => rfl
    | cons x rest ih => simp [popsOf, ih]
  refine ⟨key q log, ?_, hall, ?_, ?_⟩
  · intro j hj
    simp
    omega
  · rw [run_replicate_add, hall]
    simp [List.replicate, run, step, consumer]
  · rw [popsOf_append, hpops]

/-! ## C9: the wait predicate -/

/-- C9 (wait predicate): in a reachable state, the only step that takes the
consumer out of `cv.wait` is the predicate check, taken with the mutex owned
by the consumer in a state where the buffer is non-empty or `finished` is
true, and it leads to the drain loop with the mutex still owned and the shared
state unchanged.  A sleeping consumer is moved to `woken` by a spurious wake-up
and by `notify_one` alike, without any change of the buffer or `finished`; a
woken consumer that reacquires the mutex and finds the buffer empty and
`finished` false releases the mutex and sleeps again, leaving the buffer and
`finished` unchanged. -/
theorem wait_predicate (N : Nat) (s : State) (hr : Reachable N s) :
    (∀ l t, step N l s = some t → s.cons.inWait = true → t.cons.inWait = false →
      l = Label.cons ∧ s.cons = ConsPC.waitCheck ∧ t.cons = ConsPC.drain ∧
      (s.buffer ≠ [] ∨ s.finished = true) ∧ s.mtx = some Thread.consumer ∧
      t.mtx = some Thread.consumer ∧ t.buffer = s.buffer ∧ t.finished = s.finished) ∧
    (s.cons = ConsPC.drain → s.mtx = some Thread.consumer) ∧
    (s.cons = ConsPC.asleep →
      spuriousStep s = some { s with cons := ConsPC.woken } ∧
      notifyOne s.cons = ConsPC.woken) ∧
    (s.cons = ConsPC.woken → s.mtx = none → s.buffer = [] → s.finished = false →
      run N [Label.cons, Label.cons] s = some { s with cons := ConsPC.asleep }) ∧
    (s.cons = ConsPC.waitCheck → s.buffer = [] → s.finished = false →
      s.mtx = some Thread.consumer ∧
      consumer s = some { s with mtx := none, cons := ConsPC.asleep }) ∧
    (s.cons = ConsPC.asleep → s.buffer = [] → s.finished = false → s.mtx = none →
      run N [Label.spurious, Label.cons, Label.cons] s = some s) := by
  have h := inv_reachable hr
  obtain ⟨buf, fin, mtx, pp, cp, log⟩ := s
  have h1 := h.mutex
  have h2 := h.excl
  clear h hr
  refine ⟨?_, ?_, ?_, ?_, ?_, ?_⟩
  · intro l t hs h0 ht
    cases l <;> simp only [step] at hs
    · cases pp <;> simp only [producer] at hs <;> (try split at hs) <;> cases hs <;>
        cases cp <;> simp_all [ConsPC.inWait, notifyOne]
    · cases cp <;> simp only [consumer] at hs <;> (try split at hs) <;> (try cases hs) <;>
        simp [ConsPC.inWait] at h0 ht
      rename_i hp
      cases pp <;> cases buf <;> simp_all [waitPred]
    · cases cp <;> simp only [spuriousStep] at hs <;> cases hs
      simp_all [ConsPC.inWait]
  · intro hc
    cases pp <;> simp_all
  · intro hc
    simp_all [spuriousStep, notifyOne]
  · intro hc hm hb hf
    simp_all [run, step, consumer, waitPred]
  · intro hc hb hf
    cases pp <;> simp_all [consumer, waitPred]
  · intro hc hb hf hm
    simp_all [run, step, consumer, waitPred, spuriousStep]

theorem wait_predicate_witness :
    Reachable 3 sleeping ∧
    run 3 [Label.spurious, Label.cons, Label.cons] sleeping = some sleeping :=
  ⟨⟨[.cons, .cons], by decide⟩,
    (wait_predicate 3 sleeping ⟨[.cons, .cons], by decide⟩).2.2.2.2.2 rfl rfl rfl rfl⟩

/-! ## C10: no missed wake-up -/

/-- C10 (no missed wake-up): in every reachable state in which the consumer
sleeps in the wait set while the buffer is non-empty or `finished` is true, the
producer stands between that change and the `notify_one` that follows it, and
its next one or two steps, which are enabled, wake the consumer.  No reachable
state has the producer returned and the consumer asleep, and in every
reachable state in which the consumer has not returned one of the two threads
has an enabled step (no spurious wake-up is needed to make progress). -/
theorem no_missed_wakeup (N : Nat) (s : State) (hr : Reachable N s) :
    (s.cons = ConsPC.asleep → (s.buffer ≠ [] ∨ s.finished = true) →
      s.prod.notifyPending = true ∧
      ∃ t, (run N [Label.prod] s = some t ∨ run N [Label.prod, Label.prod] s = some t) ∧
        t.cons = ConsPC.woken) ∧
    ¬ (s.prod = ProdPC.done ∧ s.cons = ConsPC.asleep) ∧
    (s.cons ≠ ConsPC.done → (producer N s).isSome = true ∨ (consumer s).isSome = true) := by
  have h := inv_reachable hr
  refine ⟨?_, ?_, ?_⟩
  · intro hc hp
    have h8 := h.wake hc (by
      rcases hp with hp | hp
      · cases hb : s.buffer <;> simp_all [waitPred]
      · simp [waitPred, hp])
    refine ⟨h8, ?_⟩
    obtain ⟨buf, fin, mtx, pp, cp, log⟩ := s
    simp only at hc
    subst hc
    cases pp <;> simp at h8
    case unlock i =>
      exact ⟨⟨buf, fin, none, .loopTest (i + 1), .woken, log⟩, Or.inr rfl, rfl⟩
    case notify i =>
      exact ⟨⟨buf, fin, mtx, .loopTest (i + 1), .woken, log⟩, Or.inl rfl, rfl⟩
    case unlockF =>
      exact ⟨⟨buf, fin, none, .done, .woken, log⟩, Or.inr rfl, rfl⟩
    case notifyF =>
      exact ⟨⟨buf, fin, mtx, .done, .woken, log⟩, Or.inl rfl, rfl⟩
  · rintro ⟨hp, hc⟩
    have h6 := h.flag
    have h8 := h.wake hc
    obtain ⟨buf, fin, mtx, pp, cp, log⟩ := s
    simp_all [waitPred]
  · intro hc
    exact enabled_of_inv h (fun hd => hc hd.2)

theorem no_missed_wakeup_witness :
    Reachable 1 pendingNotify ∧
    (pendingNotify.prod.notifyPending = true ∧
      ∃ t, (run 1 [Label.prod] pendingNotify = some t ∨
            run 1 [Label.prod, Label.prod] pendingNotify = some t) ∧
        t.cons = ConsPC.woken) :=
  ⟨⟨[.cons, .cons, .prod, .prod, .prod, .prod], by decide⟩,
    (no_missed_wakeup 1 pendingNotify ⟨[.cons, .cons, .prod, .prod, .prod, .prod], by decide⟩).1
      rfl (Or.inl (by decide))⟩

end ProducerConsumer
